import Mathlib

/-!
Verification of the `hexdump` program (`hexdump.go`).

The Go source is shallowly embedded below.  Byte values (`byte` in Go) are
modelled as `Nat`, with the bound `b < 256` carried as a hypothesis where it
matters.  The `uint64` running offset and `int64` file size are modelled as
`Nat` (wraparound at 2^64 is unreachable for the offsets the driver produces
and is not modelled).  Output produced with `fmt.Printf`/`fmt.Println` is
modelled as lists of strings: one string per emitted line, each including its
trailing newline, split into a standard-output list and a standard-error list.
-/

namespace Hexdump

/-- Constants from the `const` block of `hexdump.go`. -/
def bufferSize : Nat := 4096

def normalWidth : Nat := 16

def wideWidth : Nat := 32

def extraWideWidth : Nat := 64

def maxUint16 : Nat := 65535

def maxUint32 : Nat := 4294967295

def chSpace : Nat := 0x20

def chDel : Nat := 0x7F

/-- The address format chosen for a stream: `"%4.4X"`, `"%8.8X"` or
`"%16.16X"` in the source.  Only these three are ever used. -/
inductive Scale where
  | s16 : Scale
  | s32 : Scale
  | s64 : Scale
deriving DecidableEq

/-- `hex16Bits = "%4.4X"`: 4 uppercase hex digits, zero padded. -/
def hex16Bits : Scale := Scale.s16

/-- `hex32Bits = "%8.8X"`: 8 uppercase hex digits, zero padded. -/
def hex32Bits : Scale := Scale.s32

/-- `hex64Bits = "%16.16X"`: 16 uppercase hex digits, zero padded. -/
def hex64Bits : Scale := Scale.s64

/-- The number of hex digits the scale's format string zero-pads to. -/
def Scale.digits : Scale → Nat
  | Scale.s16 => 4
  | Scale.s32 => 8
  | Scale.s64 => 16

/-- `isPrintable` from the source: true iff `chSpace <= ch && ch < chDel`. -/
def isPrintable (ch : Nat) : Bool :=
  if chSpace ≤ ch ∧ ch < chDel then true else false

/-- Lowercase hex digit character, as produced by Go's `%x` verb. -/
def hexDigitChar (n : Nat) : Char :=
  if n < 10 then Char.ofNat (48 + n) else Char.ofNat (87 + n)

/-- Uppercase hex digit character, as produced by Go's `%X` verb. -/
def hexDigitCharUpper (n : Nat) : Char :=
  if n < 10 then Char.ofNat (48 + n) else Char.ofNat (55 + n)

/-- Go's `%2.2x` applied to a byte value (`b < 256`): exactly two lowercase
hex digits. -/
def hexByteStr (b : Nat) : String :=
  String.mk [hexDigitChar (b / 16), hexDigitChar (b % 16)]

/-- Hex digits of `n` in order, most significant first (fuel-based so that it
reduces in the kernel; the fuel `n + 1` always suffices). -/
def toHexCharsAux (dig : Nat → Char) : Nat → Nat → List Char
  | 0, _ => []
  | fuel + 1, n =>
    if n < 16 then [dig n] else toHexCharsAux dig fuel (n / 16) ++ [dig (n % 16)]

/-- Uppercase hex digits of `n`, no padding. -/
def toHexUpperChars (n : Nat) : List Char :=
  toHexCharsAux hexDigitCharUpper (n + 1) n

/-- Go's `%d.dX` for `d ∈ {4,8,16}`: uppercase hex, zero padded to the
scale's digit count (longer values keep all their digits). -/
def addrString (fileScale : Scale) (n : Nat) : String :=
  String.mk (List.replicate (fileScale.digits - (toHexUpperChars n).length) '0'
    ++ toHexUpperChars n)

/-- Go's `%-ws`: left-justify `s` in a field of `w` characters, padding with
spaces on the right (longer values are kept whole). -/
def padRight (s : String) (w : Nat) : String :=
  s ++ String.mk (List.replicate (w - s.length) ' ')

/-- One output row of `formatBuffer` before the final `Printf`: the row's
starting offset (`linePosition`), the accumulated hex string (`hexDigits`)
and the accumulated ASCII string (`chrDigits`). -/
structure Line where
  linePosition : Nat
  hexDigits : String
  chrDigits : String
deriving DecidableEq

/-- The dynamically built `outputFormat` of `formatBuffer`, applied to one
row: `fileScale ++ " : " ++ "%-(3*width)s" ++ "  : %s\n"`. -/
def renderLine (fileScale : Scale) (displayWidth : Nat) (l : Line) : String :=
  addrString fileScale l.linePosition ++ " : " ++
    padRight l.hexDigits (3 * displayWidth) ++ "  : " ++ l.chrDigits ++ "\n"

/-- The `for i := 0; i < bytesInBuffer; i++` loop of `formatBuffer`, together
with the final flushing `Printf` after the loop.  Arguments after the byte
list: the loop counter `i`, `position`, `linePosition`, `hexDigits`,
`chrDigits`.  Each iteration first flushes the row when
`position % displayWidth == 0 && i > 0`, then appends the current byte's hex
rendering (`Sprintf("%s %2.2x", hexDigits, b)`) and ASCII rendering to the
accumulators and increments `position`. -/
def formatLoop (displayWidth : Nat) :
    List Nat → Nat → Nat → Nat → String → String → List Line × Nat
  | [], _, position, linePosition, hexDigits, chrDigits =>
    ([⟨linePosition, hexDigits, chrDigits⟩], position)
  | b :: rest, i, position, linePosition, hexDigits, chrDigits =>
    if position % displayWidth = 0 ∧ 0 < i then
      let r := formatLoop displayWidth rest (i + 1) (position + 1) position
        (" " ++ hexByteStr b)
        (if isPrintable b then String.singleton (Char.ofNat b) else ".")
      (⟨linePosition, hexDigits, chrDigits⟩ :: r.1, r.2)
    else
      formatLoop displayWidth rest (i + 1) (position + 1) linePosition
        (hexDigits ++ " " ++ hexByteStr b)
        (chrDigits ++ (if isPrintable b then String.singleton (Char.ofNat b) else "."))

/-- `formatBuffer` restricted to its observable content: the rows it prints
(as `Line` records) and the returned position.  `buffer` is the list of the
`bytesInBuffer` valid bytes of the Go buffer. -/
def formatBufferLines (buffer : List Nat) (position : Nat) (displayWidth : Nat) :
    List Line × Nat :=
  formatLoop displayWidth buffer 0 position position "" ""

/-- `formatBuffer` from the source: prints zero or more lines (rendered with
the dynamically built `outputFormat`) and returns the advanced position. -/
def formatBuffer (buffer : List Nat) (fileScale : Scale) (position : Nat)
    (displayWidth : Nat) : List String × Nat :=
  ((formatBufferLines buffer position displayWidth).1.map
      (renderLine fileScale displayWidth),
    (formatBufferLines buffer position displayWidth).2)

/-- The result of one `fh.Read(buffer)` call: the valid bytes read and the
returned error (`none` = nil, `eof` = `io.EOF`, `other` = any other error,
carrying the text Go would print for it). -/
inductive ReadError where
  | eof : ReadError
  | other : String → ReadError
deriving DecidableEq

structure ReadResult where
  data : List Nat
  err : Option ReadError
deriving DecidableEq

/-- The `for` loop of `hexdump`: consume read results in order; on `err ==
nil` format the chunk and continue with the returned offset; on `io.EOF`
return silently; on any other error print `"Error:", err` (via `fmt.Println`,
hence on standard output) and return.  Result: (standard output lines,
standard error lines).  An exhausted result list models a stream that never
delivers another read result. -/
def hexdumpLoop (fileScale : Scale) (displayWidth : Nat) :
    List ReadResult → Nat → List String × List String
  | [], _ => ([], [])
  | r :: rest, offset =>
    match r.err with
    | none =>
      let f := formatBuffer r.data fileScale offset displayWidth
      let k := hexdumpLoop fileScale displayWidth rest f.2
      (f.1 ++ k.1, k.2)
    | some ReadError.eof => ([], [])
    | some (ReadError.other m) => (["Error: " ++ m ++ "\n"], [])

/-- `hexdump` from the source: offset starts at 0. -/
def hexdump (reads : List ReadResult) (fileScale : Scale) (displayWidth : Nat) :
    List String × List String :=
  hexdumpLoop fileScale displayWidth reads 0

/-- The `switch` in `openRegularFile` choosing `fileSizeScale` from
`fileInfo.Size()`. -/
def fileSizeScale (size : Nat) : Scale :=
  if size < maxUint16 then hex16Bits
  else if size < maxUint32 then hex32Bits
  else hex64Bits

/-- One command-line path as `main` sees it after `openRegularFile`: either
the open failed / the path is not a regular file (with the error text), or a
regular file of the given size whose reads are the given list. -/
inductive FileArg where
  | badPath : String → FileArg
  | goodFile : Nat → List ReadResult → FileArg

/-- The `for i := range args` loop of `main`: each path is processed
independently in order; a failed `openRegularFile` prints
`"\nWarning: Skipping file: %s\n"` on standard error and the loop continues;
a successful one runs `hexdump` with the file's scale. -/
def mainFiles (displayWidth : Nat) : List FileArg → List String × List String
  | [] => ([], [])
  | FileArg.badPath m :: rest =>
    let k := mainFiles displayWidth rest
    (k.1, ("\nWarning: Skipping file: " ++ m ++ "\n") :: k.2)
  | FileArg.goodFile size reads :: rest =>
    let d := hexdump reads (fileSizeScale size) displayWidth
    let k := mainFiles displayWidth rest
    (d.1 ++ k.1, d.2 ++ k.2)

structure MainResult where
  stdout : List String
  stderr : List String
  exitCode : Nat
deriving DecidableEq

/-- `main` from the source, after flag parsing: the `-w`/`-x` conflict exits
with status 1 before touching any input; otherwise the display width is
chosen, and either stdin is dumped with the 64-bit scale or the files are
processed in order.  No other exit path sets a nonzero status. -/
def mainRun (wide extraWide : Bool) (stdinReads : List ReadResult)
    (files : List FileArg) : MainResult :=
  if wide && extraWide then
    ⟨[], ["Error: Wide and Extra wide options are mutually exclusive\n"], 1⟩
  else
    let displayWidth :=
      if wide then wideWidth else if extraWide then extraWideWidth else normalWidth
    if files.isEmpty then
      let d := hexdump stdinReads hex64Bits displayWidth
      ⟨d.1, d.2, 0⟩
    else
      let d := mainFiles displayWidth files
      ⟨d.1, d.2, 0⟩

/-- A sequence of `formatBuffer` calls on consecutive chunks, threading the
returned position, as the driver performs them. -/
def formatCalls (displayWidth : Nat) : List (List Nat) → Nat → List Line × Nat
  | [], p => ([], p)
  | c :: cs, p =>
    let r := formatBufferLines c p displayWidth
    let k := formatCalls displayWidth cs r.2
    (r.1 ++ k.1, k.2)

/-! Abstractions used to state and prove properties of the formatter. -/

/-- The hex accumulator a row holds after consuming the bytes `bs`:
`Sprintf("%s %2.2x", ·, b)` folded over `bs` starting from `""`. -/
def hexEnc : List Nat → String
  | [] => ""
  | b :: t => " " ++ hexByteStr b ++ hexEnc t

/-- The ASCII accumulator a row holds after consuming the bytes `bs`. -/
def chrEnc : List Nat → String
  | [] => ""
  | b :: t =>
    (if isPrintable b then String.singleton (Char.ofNat b) else ".") ++ chrEnc t

/-- Numeric value of a lowercase hex digit character. -/
def hexCharVal (c : Char) : Nat :=
  if '0' ≤ c ∧ c ≤ '9' then c.toNat - 48
  else if 'a' ≤ c ∧ c ≤ 'f' then c.toNat - 87
  else 0

/-- Decode a hex column built from ` xx` groups back into its byte values. -/
def decodeHexChars : List Char → List Nat
  | ' ' :: h :: l :: rest => (16 * hexCharVal h + hexCharVal l) :: decodeHexChars rest
  | _ => []

/-- The bytes represented in the hex column of one output row. -/
def lineBytes (l : Line) : List Nat :=
  decodeHexChars l.hexDigits.data

/-- The rows `formatBuffer` emits, described directly: starting at absolute
offset `p`, the first row ends at the next multiple of `W` and every later
row is `W` bytes, the last row keeping whatever remains. -/
def splitRowsAux (W : Nat) (p : Nat) (c : List Nat) : List (Nat × List Nat) :=
  if h : c.length ≤ W - p % W ∨ W - p % W = 0 then [(p, c)]
  else
    (p, c.take (W - p % W)) ::
      splitRowsAux W (p + (W - p % W)) (c.drop (W - p % W))
termination_by c.length
decreasing_by
  simp only [List.length_drop]
  omega

/-- The `Line` record of one row of `splitRowsAux`. -/
def mkRowLine (r : Nat × List Nat) : Line :=
  ⟨r.1, hexEnc r.2, chrEnc r.2⟩

theorem hexEnc_append (a b : List Nat) : hexEnc (a ++ b) = hexEnc a ++ hexEnc b := by
  induction a with
  | nil => simp [hexEnc, String.empty_append]
  | cons x t ih => simp [hexEnc, ih, String.append_assoc]

theorem chrEnc_append (a b : List Nat) : chrEnc (a ++ b) = chrEnc a ++ chrEnc b := by
  induction a with
  | nil => simp [chrEnc, String.empty_append]
  | cons x t ih => simp [chrEnc, ih, String.append_assoc]

theorem hexEnc_snoc (a : List Nat) (b : Nat) :
    hexEnc (a ++ [b]) = hexEnc a ++ " " ++ hexByteStr b := by
  rw [hexEnc_append, String.append_assoc]
  simp [hexEnc, String.append_empty]

theorem chrEnc_snoc (a : List Nat) (b : Nat) :
    chrEnc (a ++ [b]) =
      chrEnc a ++ (if isPrintable b then String.singleton (Char.ofNat b) else ".") := by
  rw [chrEnc_append]
  simp [chrEnc, String.append_empty]

theorem hexEnc_singleton (b : Nat) : hexEnc [b] = " " ++ hexByteStr b := by
  simp [hexEnc, String.append_empty, String.append_assoc]

theorem chrEnc_singleton (b : Nat) :
    chrEnc [b] = (if isPrintable b then String.singleton (Char.ofNat b) else ".") := by
  simp [chrEnc, String.append_empty]

theorem hexByteStr_length (b : Nat) : (hexByteStr b).length = 2 := rfl

theorem hexEnc_length (bs : List Nat) : (hexEnc bs).length = 3 * bs.length := by
  induction bs with
  | nil => rfl
  | cons b t ih =>
    show (" " ++ hexByteStr b ++ hexEnc t).length = _
    rw [String.length_append, String.length_append, hexByteStr_length, ih]
    show 1 + 2 + 3 * t.length = 3 * (t.length + 1)
    omega

theorem chrEnc_length (bs : List Nat) : (chrEnc bs).length = bs.length := by
  induction bs with
  | nil => rfl
  | cons b t ih =>
    show ((if isPrintable b then String.singleton (Char.ofNat b) else ".") ++ chrEnc t).length = _
    rw [String.length_append, ih]
    by_cases hb : isPrintable b <;> simp [hb, String.length, String.singleton] <;> omega

theorem hexCharVal_hexDigitChar : ∀ n, n < 16 → hexCharVal (hexDigitChar n) = n := by
  decide

theorem decodeHexChars_hexEnc (bs : List Nat) (h : ∀ b ∈ bs, b < 256) :
    decodeHexChars (hexEnc bs).data = bs := by
  induction bs with
  | nil => rfl
  | cons b t ih =>
    have hb : b < 256 := h b (List.mem_cons_self _ _)
    have hdata : (hexEnc (b :: t)).data =
        ' ' :: hexDigitChar (b / 16) :: hexDigitChar (b % 16) :: (hexEnc t).data := by
      show ((" " ++ hexByteStr b ++ hexEnc t)).data = _
      rw [String.data_append, String.data_append]
      rfl
    rw [hdata]
    show (16 * hexCharVal (hexDigitChar (b / 16)) + hexCharVal (hexDigitChar (b % 16))) ::
        decodeHexChars (hexEnc t).data = b :: t
    rw [hexCharVal_hexDigitChar _ (by omega), hexCharVal_hexDigitChar _ (by omega),
      ih (fun x hx => h x (List.mem_cons_of_mem _ hx))]
    congr 1
    omega

theorem lineBytes_mkRowLine (r : Nat × List Nat) (h : ∀ b ∈ r.2, b < 256) :
    lineBytes (mkRowLine r) = r.2 :=
  decodeHexChars_hexEnc r.2 h

theorem succ_mod (p W : Nat) : (p + 1) % W = (p % W + 1) % W := by
  have h1 : p + 1 = W * (p / W) + (p % W + 1) := by
    have h2 := Nat.div_add_mod p W
    omega
  rw [h1, Nat.mul_add_mod]

theorem distToBoundary_succ (p W : Nat) (hW : 0 < W) :
    (W - (p + 1) % W) % W = W - p % W - 1 := by
  have hr : p % W < W := Nat.mod_lt _ hW
  rw [succ_mod]
  by_cases hc : p % W + 1 = W
  · rw [hc, Nat.mod_self, Nat.sub_zero, Nat.mod_self]
    omega
  · rw [Nat.mod_eq_of_lt (by omega : p % W + 1 < W),
      Nat.mod_eq_of_lt (by omega : W - (p % W + 1) < W)]
    omega

theorem distToBoundary_of_ne (p W : Nat) (hW : 0 < W) (h : p % W ≠ 0) :
    (W - p % W) % W = W - p % W := by
  have hr : p % W < W := Nat.mod_lt _ hW
  exact Nat.mod_eq_of_lt (by omega)

theorem distToBoundary_of_eq (p W : Nat) (h : p % W = 0) :
    (W - p % W) % W = 0 := by
  rw [h, Nat.sub_zero, Nat.mod_self]

theorem take_cons_pos {α : Type} {n : Nat} (h : 0 < n) (b : α) (l : List α) :
    (b :: l).take n = b :: l.take (n - 1) := by
  obtain ⟨m, rfl⟩ : ∃ m, n = m + 1 := ⟨n - 1, by omega⟩
  simp [List.take_succ_cons]

theorem drop_cons_pos {α : Type} {n : Nat} (h : 0 < n) (b : α) (l : List α) :
    (b :: l).drop n = l.drop (n - 1) := by
  obtain ⟨m, rfl⟩ : ∃ m, n = m + 1 := ⟨n - 1, by omega⟩
  simp [List.drop_succ_cons]

theorem splitRowsAux_ne_nil (W p : Nat) (c : List Nat) : splitRowsAux W p c ≠ [] := by
  rw [splitRowsAux]
  split <;> simp

theorem splitRowsAux_head (W p : Nat) (c : List Nat) (hW : 0 < W) :
    (splitRowsAux W p c).head? = some (p, c.take (W - p % W)) := by
  have hr : p % W < W := Nat.mod_lt p hW
  rw [splitRowsAux]
  split
  · rename_i h
    rcases h with h | h
    · simp [List.take_of_length_le h]
    · omega
  · rfl

theorem splitRowsAux_flatten (W : Nat) (hW : 0 < W) :
    ∀ (n : Nat) (c : List Nat) (p : Nat), c.length ≤ n →
      ((splitRowsAux W p c).map Prod.snd).flatten = c := by
  intro n
  induction n with
  | zero =>
    intro c p hc
    have hcnil : c = [] := List.length_eq_zero.mp (by omega)
    subst hcnil
    rw [splitRowsAux, dif_pos (Or.inl (by simp))]
    simp
  | succ n ih =>
    intro c p hc
    rw [splitRowsAux]
    split
    · simp
    · rename_i h
      push_neg at h
      obtain ⟨h1, h2⟩ := h
      simp only [List.map_cons, List.flatten_cons]
      rw [ih (c.drop (W - p % W)) (p + (W - p % W)) (by rw [List.length_drop]; omega)]
      exact List.take_append_drop _ c

theorem splitRowsAux_getLast (W : Nat) (hW : 0 < W) :
    ∀ (n : Nat) (c : List Nat) (p : Nat), c.length ≤ n → (p + c.length) % W ≠ 0 →
      ∃ r, (splitRowsAux W p c).getLast? = some r ∧ r.2.length < W := by
  intro n
  induction n with
  | zero =>
    intro c p hc _
    have hcnil : c = [] := List.length_eq_zero.mp (by omega)
    subst hcnil
    rw [splitRowsAux, dif_pos (Or.inl (by simp))]
    exact ⟨(p, []), rfl, by simpa using hW⟩
  | succ n ih =>
    intro c p hc hmid
    have hr : p % W < W := Nat.mod_lt p hW
    rw [splitRowsAux]
    split
    · rename_i h
      have h1 : c.length ≤ W - p % W := by rcases h with h | h <;> omega
      refine ⟨(p, c), rfl, ?_⟩
      show c.length < W
      rcases Nat.lt_or_ge c.length (W - p % W) with hlt | hge
      · omega
      · exfalso
        have heq : c.length = W - p % W := by omega
        have hd := Nat.div_add_mod p W
        have hmul : W * (p / W + 1) = W * (p / W) + W := by ring
        have hpc : p + c.length = W * (p / W + 1) := by omega
        exact hmid (by rw [hpc, Nat.mul_mod_right])
    · rename_i h
      push_neg at h
      obtain ⟨h1, h2⟩ := h
      obtain ⟨r, hr1, hr2⟩ := ih (c.drop (W - p % W)) (p + (W - p % W))
        (by rw [List.length_drop]; omega)
        (by rw [List.length_drop]
            have heq : p + (W - p % W) + (c.length - (W - p % W)) = p + c.length := by omega
            rw [heq]; exact hmid)
      refine ⟨r, ?_, hr2⟩
      cases hl : splitRowsAux W (p + (W - p % W)) (c.drop (W - p % W)) with
      | nil => exact absurd hl (splitRowsAux_ne_nil W _ _)
      | cons y ys =>
        rw [hl] at hr1
        rw [List.getLast?_cons_cons]
        exact hr1

theorem splitRowsAux_mem_bytes (W : Nat) (hW : 0 < W) (c : List Nat) (p : Nat)
    (r : Nat × List Nat) (hr : r ∈ splitRowsAux W p c) (b : Nat) (hb : b ∈ r.2) :
    b ∈ c := by
  have hfl := splitRowsAux_flatten W hW c.length c p le_rfl
  rw [← hfl, List.mem_flatten]
  exact ⟨r.2, List.mem_map_of_mem Prod.snd hr, hb⟩

/-- Unrolling of the `formatBuffer` loop for `i > 0` (every iteration after
the first): starting with accumulators holding the bytes `bs0` of the current
row, the loop emits the current row up to the next multiple of
`displayWidth`, then one row per `displayWidth`-aligned block. -/
theorem formatLoop_eq_rows (W : Nat) (hW : 0 < W) :
    ∀ (c : List Nat) (i p lineP : Nat) (bs0 : List Nat), 0 < i →
      formatLoop W c i p lineP (hexEnc bs0) (chrEnc bs0) =
        (if c.length ≤ (W - p % W) % W then
          [⟨lineP, hexEnc (bs0 ++ c), chrEnc (bs0 ++ c)⟩]
        else
          ⟨lineP, hexEnc (bs0 ++ c.take ((W - p % W) % W)),
            chrEnc (bs0 ++ c.take ((W - p % W) % W))⟩ ::
            (splitRowsAux W (p + (W - p % W) % W) (c.drop ((W - p % W) % W))).map mkRowLine,
        p + c.length) := by
  intro c
  induction c with
  | nil =>
    intro i p lineP bs0 hi
    simp only [formatLoop]
    rw [if_pos (by simp)]
    simp
  | cons b rest ih =>
    intro i p lineP bs0 hi
    have hr : p % W < W := Nat.mod_lt p hW
    by_cases hp : p % W = 0
    · -- the loop flushes the current row before consuming `b`
      simp only [formatLoop]
      rw [if_pos ⟨hp, hi⟩]
      rw [← hexEnc_singleton b, ← chrEnc_singleton b,
        ih (i + 1) (p + 1) p [b] (by omega)]
      have hd1 : (W - (p + 1) % W) % W = W - 1 := by
        rw [distToBoundary_succ p W hW, hp]
        omega
      rw [hd1, distToBoundary_of_eq p W hp]
      have hc0 : ¬((b :: rest).length ≤ 0) := by simp
      rw [if_neg hc0]
      simp only [List.take_zero, List.drop_zero, Nat.add_zero, List.append_nil]
      conv_rhs => rw [splitRowsAux]
      simp only [hp, Nat.sub_zero]
      by_cases hlen : rest.length ≤ W - 1
      · have hc1 : (b :: rest).length ≤ W ∨ W = 0 :=
          Or.inl (by simp only [List.length_cons]; omega)
        rw [if_pos hlen, dif_pos hc1]
        simp [mkRowLine, List.singleton_append, Prod.ext_iff]
        all_goals omega
      · have hc1 : ¬((b :: rest).length ≤ W ∨ W = 0) := by
          push_neg
          exact ⟨by simp only [List.length_cons]; omega, by omega⟩
        rw [if_neg hlen, dif_neg hc1]
        have ht : (b :: rest).take W = b :: rest.take (W - 1) := take_cons_pos hW b rest
        have hdr : (b :: rest).drop W = rest.drop (W - 1) := drop_cons_pos hW b rest
        have hpos2 : p + 1 + (W - 1) = p + W := by omega
        rw [ht, hdr, hpos2]
        simp [mkRowLine, List.singleton_append, Prod.ext_iff]
        all_goals omega
    · -- no flush: `b` joins the current row
      simp only [formatLoop]
      rw [if_neg (fun hcontra => hp hcontra.1)]
      rw [← hexEnc_snoc bs0 b, ← chrEnc_snoc bs0 b,
        ih (i + 1) (p + 1) lineP (bs0 ++ [b]) (by omega)]
      rw [distToBoundary_succ p W hW, distToBoundary_of_ne p W hW hp]
      have hdpos : 0 < W - p % W := by omega
      by_cases hlen : rest.length ≤ W - p % W - 1
      · have hc2 : (b :: rest).length ≤ W - p % W := by
          simp only [List.length_cons]; omega
        rw [if_pos hlen, if_pos hc2]
        simp [List.append_assoc, List.singleton_append, Prod.ext_iff]
        all_goals omega
      · have hc2 : ¬((b :: rest).length ≤ W - p % W) := by
          simp only [List.length_cons]; omega
        rw [if_neg hlen, if_neg hc2]
        have ht : (b :: rest).take (W - p % W) = b :: rest.take (W - p % W - 1) :=
          take_cons_pos hdpos b rest
        have hdr : (b :: rest).drop (W - p % W) = rest.drop (W - p % W - 1) :=
          drop_cons_pos hdpos b rest
        have hpos2 : p + 1 + (W - p % W - 1) = p + (W - p % W) := by omega
        rw [ht, hdr, hpos2]
        simp [List.append_assoc, List.singleton_append, Prod.ext_iff]
        all_goals omega

/-- `formatBuffer` emits exactly the `displayWidth`-aligned rows of its chunk:
the first row ends at the next multiple of the width after `position` (the
`i > 0` guard only suppresses a flush before the very first byte), later rows
are full, and the final flush emits whatever remains. -/
theorem formatBufferLines_eq_rows (c : List Nat) (p W : Nat) (hW : 0 < W) :
    formatBufferLines c p W = ((splitRowsAux W p c).map mkRowLine, p + c.length) := by
  cases c with
  | nil =>
    rw [formatBufferLines]
    simp only [formatLoop]
    rw [splitRowsAux, dif_pos (Or.inl (by simp))]
    simp [mkRowLine, hexEnc, chrEnc]
  | cons b rest =>
    have hr : p % W < W := Nat.mod_lt p hW
    rw [formatBufferLines]
    simp only [formatLoop]
    rw [if_neg (fun hcontra => Nat.lt_irrefl 0 hcontra.2)]
    rw [String.empty_append, String.empty_append, ← hexEnc_singleton b, ← chrEnc_singleton b,
      formatLoop_eq_rows W hW rest 1 (p + 1) p [b] (by omega)]
    rw [distToBoundary_succ p W hW]
    conv_rhs => rw [splitRowsAux]
    have hkpos : 0 < W - p % W := by omega
    by_cases hlen : rest.length ≤ W - p % W - 1
    · have hc1 : (b :: rest).length ≤ W - p % W ∨ W - p % W = 0 :=
        Or.inl (by simp only [List.length_cons]; omega)
      rw [if_pos hlen, dif_pos hc1]
      simp [mkRowLine, List.singleton_append, Prod.ext_iff]
      all_goals omega
    · have hc1 : ¬((b :: rest).length ≤ W - p % W ∨ W - p % W = 0) := by
        push_neg
        exact ⟨by simp only [List.length_cons]; omega, by omega⟩
      rw [if_neg hlen, dif_neg hc1]
      have ht : (b :: rest).take (W - p % W) = b :: rest.take (W - p % W - 1) :=
        take_cons_pos hkpos b rest
      have hdr : (b :: rest).drop (W - p % W) = rest.drop (W - p % W - 1) :=
        drop_cons_pos hkpos b rest
      have hpos2 : p + 1 + (W - p % W - 1) = p + (W - p % W) := by omega
      rw [ht, hdr, hpos2]
      simp [mkRowLine, List.singleton_append, Prod.ext_iff]
      all_goals omega

theorem formatLoop_snd (W : Nat) :
    ∀ (c : List Nat) (i p lineP : Nat) (hx cx : String),
      (formatLoop W c i p lineP hx cx).2 = p + c.length := by
  intro c
  induction c with
  | nil => intro i p lineP hx cx; rfl
  | cons b rest ih =>
    intro i p lineP hx cx
    simp only [formatLoop]
    split <;> (simp only [ih, List.length_cons]; omega)

theorem formatBufferLines_snd (c : List Nat) (p W : Nat) :
    (formatBufferLines c p W).2 = p + c.length :=
  formatLoop_snd W c 0 p p "" ""

theorem formatBufferLines_map_lineBytes (c : List Nat) (p W : Nat) (hW : 0 < W)
    (h256 : ∀ b ∈ c, b < 256) :
    ((formatBufferLines c p W).1.map lineBytes).flatten = c := by
  rw [formatBufferLines_eq_rows c p W hW]
  show ((List.map mkRowLine (splitRowsAux W p c)).map lineBytes).flatten = c
  rw [List.map_map]
  rw [List.map_congr_left (fun r hrr =>
    show (lineBytes ∘ mkRowLine) r = Prod.snd r from
      lineBytes_mkRowLine r (fun b hb => h256 b (splitRowsAux_mem_bytes W hW c p r hrr b hb)))]
  exact splitRowsAux_flatten W hW c.length c p le_rfl

theorem formatBufferLines_hex_chr_len (c : List Nat) (p W : Nat) (hW : 0 < W) :
    ∀ l ∈ (formatBufferLines c p W).1, l.hexDigits.length = 3 * l.chrDigits.length := by
  rw [formatBufferLines_eq_rows c p W hW]
  intro l hl
  obtain ⟨r, _, rfl⟩ := List.mem_map.mp hl
  show (hexEnc r.2).length = 3 * (chrEnc r.2).length
  rw [hexEnc_length, chrEnc_length]

theorem formatBufferLines_head (c : List Nat) (p W : Nat) (hW : 0 < W) :
    (formatBufferLines c p W).1.head? =
      some ⟨p, hexEnc (c.take (W - p % W)), chrEnc (c.take (W - p % W))⟩ := by
  rw [formatBufferLines_eq_rows c p W hW]
  show (List.map mkRowLine (splitRowsAux W p c)).head? = _
  rw [List.head?_map, splitRowsAux_head W p c hW]
  rfl

theorem formatBufferLines_getLast (c : List Nat) (p W : Nat) (hW : 0 < W)
    (hmid : (p + c.length) % W ≠ 0) :
    ∃ l, (formatBufferLines c p W).1.getLast? = some l ∧ l.chrDigits.length < W := by
  obtain ⟨r, hr1, hr2⟩ := splitRowsAux_getLast W hW c.length c p le_rfl hmid
  refine ⟨mkRowLine r, ?_, ?_⟩
  · rw [formatBufferLines_eq_rows c p W hW]
    show (List.map mkRowLine (splitRowsAux W p c)).getLast? = _
    rw [List.getLast?_map, hr1]
    rfl
  · show (chrEnc r.2).length < W
    rw [chrEnc_length]
    exact hr2

theorem padRight_length (s : String) (w : Nat) :
    (padRight s w).length = s.length + (w - s.length) := by
  rw [padRight, String.length_append]
  have h : (String.mk (List.replicate (w - s.length) ' ')).length = w - s.length := by
    show (List.replicate (w - s.length) ' ').length = w - s.length
    exact List.length_replicate _ _
  rw [h]

theorem splitRowsAux_row_len (W : Nat) (hW : 0 < W) :
    ∀ (n : Nat) (c : List Nat) (p : Nat), c.length ≤ n →
      ∀ r ∈ splitRowsAux W p c, r.2.length ≤ W := by
  intro n
  induction n with
  | zero =>
    intro c p hc r hr
    have hcnil : c = [] := List.length_eq_zero.mp (by omega)
    subst hcnil
    rw [splitRowsAux, dif_pos (Or.inl (by simp))] at hr
    rw [List.mem_singleton.mp hr]
    exact Nat.zero_le W
  | succ n ih =>
    intro c p hc r hr
    have hrm : p % W < W := Nat.mod_lt p hW
    rw [splitRowsAux] at hr
    split at hr
    · rename_i h
      have h1 : c.length ≤ W - p % W := by rcases h with h | h <;> omega
      rw [List.mem_singleton.mp hr]
      show c.length ≤ W
      omega
    · rename_i h
      push_neg at h
      rcases List.mem_cons.mp hr with hcase | hcase
      · rw [hcase]
        show (c.take (W - p % W)).length ≤ W
        rw [List.length_take]
        omega
      · exact ih (c.drop (W - p % W)) (p + (W - p % W))
          (by rw [List.length_drop]; omega) r hcase

/-- C1: for every byte sequence `S` (= `chunks.flatten`) and every positive
display width, concatenating in order the bytes represented in the hex
columns of all lines emitted by the sequence of `formatBuffer` calls that
consume `S` reconstructs `S` exactly — no byte lost, none duplicated —
regardless of how `S` is partitioned into chunks across calls.  Each line's
ASCII column renders the same bytes one character per byte, so its hex column
is exactly three times as long. -/
theorem formatCalls_reconstructs (displayWidth p0 : Nat) (chunks : List (List Nat))
    (hW : 0 < displayWidth) (h256 : ∀ b ∈ chunks.flatten, b < 256) :
    ((formatCalls displayWidth chunks p0).1.map lineBytes).flatten = chunks.flatten ∧
    ∀ l ∈ (formatCalls displayWidth chunks p0).1,
      l.hexDigits.length = 3 * l.chrDigits.length := by
  induction chunks generalizing p0 with
  | nil => exact ⟨rfl, fun l hl => absurd hl (List.not_mem_nil l)⟩
  | cons c cs ih =>
    have hmemL : ∀ b ∈ c, b ∈ (c :: cs).flatten := by
      intro b hb
      rw [List.flatten_cons]
      exact List.mem_append_left _ hb
    have hmemR : ∀ b ∈ cs.flatten, b ∈ (c :: cs).flatten := by
      intro b hb
      rw [List.flatten_cons]
      exact List.mem_append_right _ hb
    obtain ⟨ih1, ih2⟩ := ih ((formatBufferLines c p0 displayWidth).2)
      (fun b hb => h256 b (hmemR b hb))
    constructor
    · show (((formatBufferLines c p0 displayWidth).1 ++
          (formatCalls displayWidth cs ((formatBufferLines c p0 displayWidth).2)).1).map
            lineBytes).flatten = (c :: cs).flatten
      rw [List.map_append, List.flatten_append, List.flatten_cons, ih1,
        formatBufferLines_map_lineBytes c p0 displayWidth hW
          (fun b hb => h256 b (hmemL b hb))]
    · intro l hl
      have hl2 : l ∈ (formatBufferLines c p0 displayWidth).1 ++
          (formatCalls displayWidth cs ((formatBufferLines c p0 displayWidth).2)).1 := hl
      rcases List.mem_append.mp hl2 with hcase | hcase
      · exact formatBufferLines_hex_chr_len c p0 displayWidth hW l hcase
      · exact ih2 l hcase

theorem formatCalls_reconstructs_witness :
    (((formatCalls 16 [[65, 255], [10]] 0).1.map lineBytes).flatten =
      ([[65, 255], [10]] : List (List Nat)).flatten) ∧
    ∀ l ∈ (formatCalls 16 [[65, 255], [10]] 0).1,
      l.hexDigits.length = 3 * l.chrDigits.length :=
  formatCalls_reconstructs 16 0 [[65, 255], [10]] (by omega) (by decide)

/-- C5: `formatBuffer` returns exactly `position + bytesInBuffer`, so the
running offset carried by the driver advances by exactly the number of bytes
consumed and never decreases. -/
theorem formatBuffer_returns_offset (buffer : List Nat) (fileScale : Scale)
    (position displayWidth : Nat) :
    (formatBuffer buffer fileScale position displayWidth).2 = position + buffer.length ∧
    position ≤ (formatBuffer buffer fileScale position displayWidth).2 := by
  have h : (formatBuffer buffer fileScale position displayWidth).2 =
      position + buffer.length := formatBufferLines_snd buffer position displayWidth
  exact ⟨h, by omega⟩

/-- C3: the formatter's accumulators are local to each `formatBuffer` call:
when the chunk boundary falls mid-row, the first call's final flush emits a
row of fewer than `displayWidth` bytes, and the next call starts with empty
accumulators — its first emitted line holds only bytes of the second chunk
(up to the next width boundary, hence also fewer than `displayWidth` of
them) and carries the absolute mid-row offset of the first byte of that
call, because the flush test uses the absolute offset modulo the width. -/
theorem chunk_boundary_two_partial_rows (W p0 : Nat) (c1 c2 : List Nat) (hW : 0 < W)
    (h1 : c1 ≠ []) (h2 : c2 ≠ []) (hmid : (p0 + c1.length) % W ≠ 0) :
    (formatBufferLines c1 p0 W).2 = p0 + c1.length ∧
    (∃ l, (formatBufferLines c1 p0 W).1.getLast? = some l ∧ l.chrDigits.length < W) ∧
    (formatBufferLines c2 ((formatBufferLines c1 p0 W).2) W).1.head? =
      some ⟨p0 + c1.length,
        hexEnc (c2.take (W - (p0 + c1.length) % W)),
        chrEnc (c2.take (W - (p0 + c1.length) % W))⟩ ∧
    (c2.take (W - (p0 + c1.length) % W)).length < W := by
  have hpos : (formatBufferLines c1 p0 W).2 = p0 + c1.length :=
    formatBufferLines_snd c1 p0 W
  refine ⟨hpos, formatBufferLines_getLast c1 p0 W hW hmid, ?_, ?_⟩
  · rw [hpos]
    exact formatBufferLines_head c2 (p0 + c1.length) W hW
  · rw [List.length_take]
    have hrm : (p0 + c1.length) % W < W := Nat.mod_lt _ hW
    omega

theorem chunk_boundary_two_partial_rows_witness :
    (formatBufferLines [65, 66, 67] 0 16).2 = 0 + [65, 66, 67].length ∧
    (∃ l, (formatBufferLines [65, 66, 67] 0 16).1.getLast? = some l ∧
      l.chrDigits.length < 16) ∧
    (formatBufferLines [68] ((formatBufferLines [65, 66, 67] 0 16).2) 16).1.head? =
      some ⟨0 + [65, 66, 67].length,
        hexEnc (List.take (16 - (0 + [65, 66, 67].length) % 16) [68]),
        chrEnc (List.take (16 - (0 + [65, 66, 67].length) % 16) [68])⟩ ∧
    (List.take (16 - (0 + [65, 66, 67].length) % 16) [68]).length < 16 :=
  chunk_boundary_two_partial_rows 16 0 [65, 66, 67] [68] (by omega) (by decide)
    (by decide) (by decide)

/-- C2, counterexample: dumping `[0x41, 0x42, 0x0A, 0xFF]` at default width
from a streamed source does not produce the line the claim describes (hex
column `41 42 0a ff` left-justified in 48 characters with single-space
separators around both colons): the code puts a space before every hex byte
group and two spaces before the second colon. -/
theorem formatted_line_counterexample :
    (hexdump [⟨[0x41, 0x42, 0x0A, 0xFF], none⟩, ⟨[], some ReadError.eof⟩]
        hex64Bits normalWidth).1 ≠
      ["0000000000000000 : " ++ padRight "41 42 0a ff" 48 ++ " : AB..\n"] := by
  decide

/-- C2, amended: every line emitted by any `formatBuffer` call, at any scale,
offset and positive display width, has the exact format
`<address> : <hex column>  : <ascii column>\n` — two spaces before the second
colon — where `(q, bs)` is the corresponding row of the chunk (`q` its
absolute starting offset, `bs` its at most `displayWidth` bytes), the address
is `q` rendered per the Address Scale, the hex column consists of one ` xx`
group per byte of `bs` (a space followed by the byte's two lowercase hex
digits) left-justified in a field of exactly `3 × displayWidth` characters,
and the ASCII column renders the same bytes; in particular dumping
`[0x41, 0x42, 0x0A, 0xFF]` at default width from a streamed source yields
exactly one line with a 16-hex-digit zero address, hex field ` 41 42 0a ff`
padded to 48 characters, and ASCII column `AB..`. -/
theorem formatted_line_amended :
    (∀ (c : List Nat) (fs : Scale) (p W : Nat), 0 < W →
      ∀ s ∈ (formatBuffer c fs p W).1, ∃ q bs,
        (q, bs) ∈ splitRowsAux W p c ∧
        bs.length ≤ W ∧
        (hexEnc bs).length = 3 * bs.length ∧
        (padRight (hexEnc bs) (3 * W)).length = 3 * W ∧
        s = addrString fs q ++ " : " ++ padRight (hexEnc bs) (3 * W) ++ "  : " ++
          chrEnc bs ++ "\n") ∧
    hexdump [⟨[0x41, 0x42, 0x0A, 0xFF], none⟩, ⟨[], some ReadError.eof⟩]
        hex64Bits normalWidth =
      (["0000000000000000 : " ++ padRight " 41 42 0a ff" 48 ++ "  : AB..\n"], []) := by
  constructor
  · intro c fs p W hW s hs
    replace hs : s ∈ (formatBufferLines c p W).1.map (renderLine fs W) := hs
    obtain ⟨l, hl, rfl⟩ := List.mem_map.mp hs
    rw [formatBufferLines_eq_rows c p W hW] at hl
    replace hl : l ∈ List.map mkRowLine (splitRowsAux W p c) := hl
    obtain ⟨r, hr, rfl⟩ := List.mem_map.mp hl
    have hle : r.2.length ≤ W := splitRowsAux_row_len W hW c.length c p le_rfl r hr
    refine ⟨r.1, r.2, hr, hle, hexEnc_length r.2, ?_, rfl⟩
    rw [padRight_length, hexEnc_length]
    omega
  · decide

theorem formatted_line_amended_witness :
    ∃ q bs,
      (q, bs) ∈ splitRowsAux 16 0 [0x41, 0x42, 0x0A, 0xFF] ∧
      bs.length ≤ 16 ∧
      (hexEnc bs).length = 3 * bs.length ∧
      (padRight (hexEnc bs) (3 * 16)).length = 3 * 16 ∧
      "0000000000000000 : " ++ padRight " 41 42 0a ff" 48 ++ "  : AB..\n" =
        addrString hex64Bits q ++ " : " ++ padRight (hexEnc bs) (3 * 16) ++ "  : " ++
          chrEnc bs ++ "\n" :=
  formatted_line_amended.1 [0x41, 0x42, 0x0A, 0xFF] hex64Bits 0 16 (by omega)
    ("0000000000000000 : " ++ padRight " 41 42 0a ff" 48 ++ "  : AB..\n") (by decide)

/-- C4: a streamed (stdin) source always uses the 64-bit address scale; a
regular file of exactly 65534 bytes gets the 16-bit scale, one of exactly
65535 bytes (`maxUint16`) gets the 32-bit scale, and any size of at least
`maxUint32` gets the 64-bit scale — the narrower width's maximum value is a
strict upper bound. -/
theorem fileSizeScale_boundaries :
    fileSizeScale 65534 = hex16Bits ∧
    fileSizeScale 65535 = hex32Bits ∧
    (∀ n, maxUint32 ≤ n → fileSizeScale n = hex64Bits) ∧
    (∀ stdinReads : List ReadResult,
      mainRun false false stdinReads [] =
        ⟨(hexdump stdinReads hex64Bits normalWidth).1,
          (hexdump stdinReads hex64Bits normalWidth).2, 0⟩) := by
  refine ⟨by decide, by decide, ?_, fun stdinReads => rfl⟩
  intro n hn
  have e16 : maxUint16 = 65535 := rfl
  have e32 : maxUint32 = 4294967295 := rfl
  rw [fileSizeScale, if_neg (by omega), if_neg (by omega)]

theorem fileSizeScale_boundaries_witness :
    fileSizeScale 4294967295 = hex64Bits :=
  fileSizeScale_boundaries.2.2.1 4294967295 (by decide)

/-- C6: a byte is rendered verbatim in the ASCII column if and only if its
value lies in `[0x20, 0x7F)`; every other byte value below 256 is rendered as
a literal `.`, and `isPrintable` decides exactly that range. -/
theorem ascii_column_printable (b : Nat) (hb : b < 256) :
    ((formatBufferLines [b] 0 16).1.map Line.chrDigits =
        [String.singleton (Char.ofNat b)] ↔ (0x20 ≤ b ∧ b < 0x7F)) ∧
    (¬(0x20 ≤ b ∧ b < 0x7F) →
      (formatBufferLines [b] 0 16).1.map Line.chrDigits = ["."]) ∧
    (isPrintable b = true ↔ (0x20 ≤ b ∧ b < 0x7F)) := by
  have H : ∀ x : Nat, x < 256 →
      (((formatBufferLines [x] 0 16).1.map Line.chrDigits =
          [String.singleton (Char.ofNat x)] ↔ (0x20 ≤ x ∧ x < 0x7F)) ∧
        (¬(0x20 ≤ x ∧ x < 0x7F) →
          (formatBufferLines [x] 0 16).1.map Line.chrDigits = ["."]) ∧
        (isPrintable x = true ↔ (0x20 ≤ x ∧ x < 0x7F))) := by
    set_option maxRecDepth 4000 in decide
  exact H b hb

theorem ascii_column_printable_witness :
    (((formatBufferLines [65] 0 16).1.map Line.chrDigits =
        [String.singleton (Char.ofNat 65)] ↔ (0x20 ≤ 65 ∧ 65 < 0x7F)) ∧
      (¬(0x20 ≤ 65 ∧ 65 < 0x7F) →
        (formatBufferLines [65] 0 16).1.map Line.chrDigits = ["."]) ∧
      (isPrintable 65 = true ↔ (0x20 ≤ 65 ∧ 65 < 0x7F))) :=
  ascii_column_printable 65 (by decide)

/-- C7: on a read error other than `io.EOF` the driver stops that one stream
after printing `"Error: <err>"` — but via `fmt.Println`, i.e. on standard
output, not on the diagnostic channel (the standard-error component stays
empty); subsequent reads of that stream are never consumed; a clean
end-of-stream produces no message at all. -/
theorem read_error_on_stdout :
    hexdump [⟨[0x41], none⟩, ⟨[], some (ReadError.other "read failure")⟩, ⟨[0x42], none⟩]
        hex64Bits normalWidth =
      (["0000000000000000 : " ++ padRight " 41" 48 ++ "  : A\n", "Error: read failure\n"],
        []) ∧
    hexdump [⟨[], some ReadError.eof⟩] hex64Bits normalWidth = ([], []) := by
  constructor <;> decide

/-- C8, counterexample: a zero-byte read reported without error does produce
an output line — the driver calls `formatBuffer` for every `err == nil` read
with no guard on the byte count, and the final flush of a zero-byte call
emits one line with empty hex and ASCII columns. -/
theorem zero_byte_read_emits_line :
    (hexdump [⟨[], none⟩, ⟨[], some ReadError.eof⟩] hex64Bits normalWidth).1 =
      ["0000000000000000 : " ++ padRight "" 48 ++ "  : \n"] := by
  decide

/-- C8, amended: the Stream Driver invokes the Row Formatter for every read
that reports no error, including zero-byte reads; a zero-byte error-free read
therefore produces exactly one output line (the final flush fires with empty
accumulators, at the unchanged running offset). -/
theorem zero_byte_read_formats (fileScale : Scale) (displayWidth offset : Nat)
    (rest : List ReadResult) :
    hexdumpLoop fileScale displayWidth (⟨[], none⟩ :: rest) offset =
      (renderLine fileScale displayWidth ⟨offset, "", ""⟩ ::
          (hexdumpLoop fileScale displayWidth rest offset).1,
        (hexdumpLoop fileScale displayWidth rest offset).2) ∧
    formatBuffer [] fileScale offset displayWidth =
      ([renderLine fileScale displayWidth ⟨offset, "", ""⟩], offset) :=
  ⟨rfl, rfl⟩

/-- C9: paths are processed independently in argument order: a rejected path
contributes only a warning on the diagnostic channel and is skipped, an
admitted file contributes its dump, the remaining paths are processed either
way, and no outcome of the file loop sets a nonzero exit status. -/
theorem mainFiles_independent (displayWidth : Nat) (m : String) (size : Nat)
    (reads : List ReadResult) (rest : List FileArg) (stdinReads : List ReadResult)
    (files : List FileArg) :
    mainFiles displayWidth (FileArg.badPath m :: rest) =
      ((mainFiles displayWidth rest).1,
        ("\nWarning: Skipping file: " ++ m ++ "\n") :: (mainFiles displayWidth rest).2) ∧
    mainFiles displayWidth (FileArg.goodFile size reads :: rest) =
      ((hexdump reads (fileSizeScale size) displayWidth).1 ++ (mainFiles displayWidth rest).1,
        (hexdump reads (fileSizeScale size) displayWidth).2 ++
          (mainFiles displayWidth rest).2) ∧
    (mainRun false false stdinReads files).exitCode = 0 ∧
    (mainRun true false stdinReads files).exitCode = 0 ∧
    (mainRun false true stdinReads files).exitCode = 0 := by
  refine ⟨rfl, rfl, ?_, ?_, ?_⟩ <;> rcases files with _ | ⟨f, fs⟩ <;> rfl

/-- C10: a read that returns bytes together with a non-nil error — including
final bytes delivered in the same call as `io.EOF` — is handled in the error
branch, so those bytes are never passed to the Row Formatter and appear in no
output line: the produced output is independent of the returned bytes and
contains no formatted row. -/
theorem read_error_discards_bytes (bs : List Nat) (m : String) (rest : List ReadResult)
    (fileScale : Scale) (displayWidth offset : Nat) :
    hexdumpLoop fileScale displayWidth (⟨bs, some ReadError.eof⟩ :: rest) offset =
      ([], []) ∧
    hexdumpLoop fileScale displayWidth (⟨bs, some (ReadError.other m)⟩ :: rest) offset =
      (["Error: " ++ m ++ "\n"], []) :=
  ⟨rfl, rfl⟩

end Hexdump
